import Mathlib

/-!
Verification of the billion-challenge summation benchmark suite
(src/billion-challenge.ts).

The TypeScript source is shallowly embedded as follows: JavaScript numbers
are modelled with exact integer arithmetic (the summation strategies only
add nonnegative integers, so they live in Nat; the closed-form strategies
subtract and so live in Int; timings live in Rat); a bigint is an Int;
loops become tail-recursive functions that keep the loop condition of the
source and take an explicit iteration budget (the number of iterations the
source loop performs) so that every definition is executable by the kernel.
-/

namespace BC

/-- Sum of the `len` consecutive integers starting at `s`, that is
`s + (s+1) + ... + (s+len-1)`.  This is the reference value that every
summation strategy is compared against. -/
def sumLen : ℕ → ℕ → ℕ
  | _, 0 => 0
  | s, k + 1 => s + sumLen (s + 1) k

theorem sumLen_add (a : ℕ) : ∀ (s b : ℕ), sumLen s (a + b) = sumLen s a + sumLen (s + a) b := by
  induction a with
  | zero => intro s b; simp [sumLen]
  | succ a ih =>
    intro s b
    have h1 : a + 1 + b = (a + b) + 1 := by omega
    have h2 : s + 1 + a = s + (a + 1) := by omega
    calc sumLen s (a + 1 + b) = s + sumLen (s + 1) (a + b) := by rw [h1]; rfl
      _ = s + (sumLen (s + 1) a + sumLen (s + 1 + a) b) := by rw [ih]
      _ = (s + sumLen (s + 1) a) + sumLen (s + (a + 1)) b := by rw [h2]; ring
      _ = sumLen s (a + 1) + sumLen (s + (a + 1)) b := rfl

theorem sumLen_succ (s k : ℕ) : sumLen s (k + 1) = s + sumLen (s + 1) k := rfl

theorem two_mul_sumLen : ∀ n : ℕ, 2 * sumLen 0 n = n * (n - 1) := by
  intro n
  induction n with
  | zero => rfl
  | succ m ih =>
    have h : sumLen 0 (m + 1) = sumLen 0 m + m := by
      have := sumLen_add m 0 1
      simpa [sumLen] using this
    rw [h, Nat.mul_add, ih]
    cases m with
    | zero => rfl
    | succ p => simp only [Nat.add_sub_cancel]; ring

theorem sumLen_zero_eq (n : ℕ) : sumLen 0 n = n * (n - 1) / 2 := by
  have h := two_mul_sumLen n
  generalize hA : n * (n - 1) = A at h ⊢
  omega

/-- Mirror of the `BenchmarkConfig` record of the source (lines 32-51);
fields in source order: warmupRuns, testRuns, maxNumber,
enableMemoryTracking, enableProgressReporting, progressInterval,
batchSize. -/
structure BenchmarkConfig where
  warmupRuns : ℕ
  testRuns : ℕ
  maxNumber : ℕ
  enableMemoryTracking : Bool
  enableProgressReporting : Bool
  progressInterval : ℕ
  batchSize : ℕ

/-- The configuration constant of the source (lines 43-51). -/
def config : BenchmarkConfig := ⟨3, 5, 1000000000, true, true, 50000000, 10000000⟩

/-- Model of `mathFormula` (source lines 105-107): `(n * (n - 1)) / 2` on JS
numbers, here with exact integer arithmetic over `Int` (JS `n - 1` is `-1`
at `n = 0`; the float-precision behaviour at `n = 1e9` is analysed
separately by `mathFormulaFloat`). -/
def mathFormula (n : ℕ) : ℤ := ((n : ℤ) * ((n : ℤ) - 1)) / 2

/-- Model of `mathFormulaBigInt` (source lines 112-115): the same formula on
arbitrary-precision `bigint`, i.e. exact `Int` arithmetic. -/
def mathFormulaBigInt (n : ℕ) : ℤ := ((n : ℤ) * ((n : ℤ) - 1)) / 2

/-- Model of the plain summing loop `for (let i = i0; i < limit; i++) sum += i`
that the source uses in `optimizedLoop` (lines 124-130), in the worker-thread
body (lines 375-377) and in the scalar remainder loops of
`assemblyStyleLoop` and `simdStyle`; `k` is the iteration budget (number of
iterations the loop actually performs), the loop condition is kept from the
source.  Progress reporting (`reportProgress`) does not touch `sum` and is
omitted. -/
def loopAcc (limit : ℕ) : ℕ → ℕ → ℕ → ℕ
  | 0, _, sum => sum
  | k + 1, i, sum => if i < limit then loopAcc limit k (i + 1) (sum + i) else sum

/-- Model of `optimizedLoop` (source lines 120-134). -/
def optimizedLoop (n : ℕ) : ℕ := loopAcc n n 0 0

/-- Main unrolled-by-16 loop of `assemblyStyleLoop` (source lines 146-169):
each iteration adds the sixteen consecutive values `i .. i+15` exactly as
written in the source and advances `i` by 16. -/
def asmGo (limit : ℕ) : ℕ → ℕ → ℕ → ℕ
  | 0, _, sum => sum
  | k + 1, i, sum =>
    if i < limit then
      asmGo limit k (i + 16)
        (sum + (i + (i + 1) + (i + 2) + (i + 3) + (i + 4) + (i + 5) + (i + 6) + (i + 7) +
          (i + 8) + (i + 9) + (i + 10) + (i + 11) + (i + 12) + (i + 13) + (i + 14) + (i + 15)))
    else sum

/-- Model of `assemblyStyleLoop` (source lines 139-178):
`limit = Math.floor(n / 16) * 16`, an unrolled main loop, then the scalar
remainder loop `while (i < n) sum += i++`. -/
def assemblyStyleLoop (n : ℕ) : ℕ :=
  let limit := n / 16 * 16
  loopAcc n (n - limit) limit (asmGo limit (n / 16) 0 0)

/-- Main simulated-vector loop of `simdStyle` (source lines 221-230): each
iteration adds `base * 8 + (0 + 1 + 2 + 3 + 4 + 5 + 6 + 7)` with `base = i`
and advances `i` by 8. -/
def simdGo (limit : ℕ) : ℕ → ℕ → ℕ → ℕ
  | 0, _, sum => sum
  | k + 1, i, sum =>
    if i < limit then simdGo limit k (i + 8) (sum + (i * 8 + (0 + 1 + 2 + 3 + 4 + 5 + 6 + 7)))
    else sum

/-- Model of `simdStyle` (source lines 214-239):
`limit = Math.floor(n / 8) * 8`, the vector loop, then the scalar remainder
loop. -/
def simdStyle (n : ℕ) : ℕ :=
  let limit := n / 8 * 8
  loopAcc n (n - limit) limit (simdGo limit (n / 8) 0 0)

/-- Inner fill-and-sum loop of `typedArrayOptimal` (source lines 196-200):
`for (let i = 0; i < currentSize; i++) { const value = start + i; arr[i] =
value; sum += value; }`.  The `Uint32Array` store is omitted: the returned
sum reads `value`, never `arr[i]`, so the store cannot affect the result. -/
def taInner (start size : ℕ) : ℕ → ℕ → ℕ → ℕ
  | 0, _, sum => sum
  | k + 1, i, sum => if i < size then taInner start size k (i + 1) (sum + (start + i)) else sum

/-- Outer batch loop of `typedArrayOptimal` (source lines 188-205). -/
def taGo (n bs batches : ℕ) : ℕ → ℕ → ℕ → ℕ
  | 0, _, sum => sum
  | k + 1, batch, sum =>
    if batch < batches then
      taGo n bs batches k (batch + 1)
        (taInner (batch * bs) (min (batch * bs + bs) n - batch * bs)
          (min (batch * bs + bs) n - batch * bs) 0 sum)
    else sum

/-- Model of `typedArrayOptimal` (source lines 183-209):
`batchSize = Math.min(config.batchSize, n)`,
`batches = Math.ceil(n / batchSize)`.  At `n = 0` the JS division is `0/0 =
NaN`, `Math.ceil(NaN) = NaN` and the comparison `batch < NaN` is false, so
the loop body never runs; the `if bs = 0` branch reproduces that. -/
def typedArrayOptimal (n : ℕ) : ℕ :=
  let bs := min config.batchSize n
  let batches := if bs = 0 then 0 else (n + bs - 1) / bs
  taGo n bs batches batches 0 0

/-- Outer chunk loop of `cacheFriendly` (source lines 304-314): the chunk
size is `(64 / 4) * 1000 = 16000` ints; the inner loop is the plain summing
loop `loopAcc`. -/
def cfGo (n : ℕ) : ℕ → ℕ → ℕ → ℕ
  | 0, _, sum => sum
  | k + 1, chunk, sum =>
    if chunk < n then
      cfGo n k (chunk + 16000) (loopAcc (min (chunk + 16000) n) (min (chunk + 16000) n - chunk) chunk sum)
    else sum

/-- Model of `cacheFriendly` (source lines 298-318). -/
def cacheFriendly (n : ℕ) : ℕ := cfGo n (n / 16000 + 1) 0 0

/-- Model of `tailRecursive` (source lines 323-326):
`if (current >= n) return sum; return tailRecursive(n, sum + current,
current + 1)`, with iteration budget `k`. -/
def trGo (n : ℕ) : ℕ → ℕ → ℕ → ℕ
  | 0, sum, _ => sum
  | k + 1, sum, current => if n ≤ current then sum else trGo n k (sum + current) (current + 1)

/-- `tailRecursive` called with its default arguments `sum = 0`,
`current = 0`. -/
def tailRecursive (n : ℕ) : ℕ := trGo n n 0 0

/-- `Math.ceil(n / numWorkers)` of `parallelWorkers` (source line 246). -/
def chunkOf (n P : ℕ) : ℕ := (n + P - 1) / P

/-- Range-generation loop of `parallelWorkers` (source lines 249-256):
`for (let i = 0; i < numWorkers; i++) { const start = i * chunkSize; const
end = Math.min(start + chunkSize, n); if (start >= n) break; ... }`. -/
def parGo (n c : ℕ) : ℕ → ℕ → List (ℕ × ℕ)
  | 0, _ => []
  | k + 1, i =>
    if n ≤ i * c then [] else (i * c, min (i * c + c) n) :: parGo n c k (i + 1)

/-- The list of WorkRanges dispatched by `parallelWorkers` for problem size
`n` and `P = os.cpus().length` workers. -/
def parallelRanges (n P : ℕ) : List (ℕ × ℕ) := parGo n (chunkOf n P) P 0

/-- Worker-thread body (source lines 370-381): sums `start .. end-1` with a
plain loop and posts the result. -/
def workerSum (start e : ℕ) : ℕ := loopAcc e (e - start) start 0

/-- Model of `parallelWorkers` (source lines 244-260): each dispatched range
is summed by an isolated worker, `Promise.all` preserves dispatch order, and
the partial results are combined by `results.reduce((sum, r) => sum + r, 0)`. -/
def parallelWorkers (n P : ℕ) : ℕ :=
  ((parallelRanges n P).map (fun r => workerSum r.1 r.2)).foldl (fun a b => a + b) 0

theorem loopAcc_eq (limit : ℕ) :
    ∀ k i sum, limit ≤ i + k → loopAcc limit k i sum = sum + sumLen i (limit - i) := by
  intro k
  induction k with
  | zero =>
    intro i sum h
    have h0 : limit - i = 0 := by omega
    simp [loopAcc, h0, sumLen]
  | succ k ih =>
    intro i sum h
    by_cases hi : i < limit
    · have hrec := ih (i + 1) (sum + i) (by omega)
      have hs : limit - i = (limit - (i + 1)) + 1 := by omega
      simp only [loopAcc, if_pos hi, hrec, hs, sumLen_succ]
      ring
    · have h0 : limit - i = 0 := by omega
      simp [loopAcc, hi, h0, sumLen]

theorem optimizedLoop_eq (n : ℕ) : optimizedLoop n = sumLen 0 n := by
  have := loopAcc_eq n n 0 0 (by omega)
  simpa [optimizedLoop] using this

theorem workerSum_eq (s e : ℕ) : workerSum s e = sumLen s (e - s) := by
  have := loopAcc_eq e (e - s) s 0 (by omega)
  simpa [workerSum] using this

theorem sumLen_sixteen (i : ℕ) : sumLen i 16 = 16 * i + 120 := by
  simp [sumLen]; ring

theorem sumLen_eight (i : ℕ) : sumLen i 8 = 8 * i + 28 := by
  simp [sumLen]; ring

theorem asmGo_eq (limit : ℕ) (hd : 16 ∣ limit) :
    ∀ k i sum, 16 ∣ i → limit ≤ i + 16 * k → asmGo limit k i sum = sum + sumLen i (limit - i) := by
  intro k
  induction k with
  | zero =>
    intro i sum _ h
    have h0 : limit - i = 0 := by omega
    simp [asmGo, h0, sumLen]
  | succ k ih =>
    intro i sum hdi h
    by_cases hi : i < limit
    · have hdsub : 16 ∣ limit - i := Nat.dvd_sub' hd hdi
      have h16 : 16 ≤ limit - i := Nat.le_of_dvd (by omega) hdsub
      have hsplit : sumLen i (limit - i) = sumLen i 16 + sumLen (i + 16) (limit - (i + 16)) := by
        have := sumLen_add 16 i (limit - (i + 16))
        have harg : 16 + (limit - (i + 16)) = limit - i := by omega
        rw [harg] at this
        exact this
      simp only [asmGo, if_pos hi]
      rw [ih (i + 16) _ (by omega) (by omega), hsplit, sumLen_sixteen]
      ring
    · have h0 : limit - i = 0 := by omega
      simp [asmGo, hi, h0, sumLen]

theorem assemblyStyleLoop_eq (n : ℕ) : assemblyStyleLoop n = sumLen 0 n := by
  unfold assemblyStyleLoop
  have hlim : n / 16 * 16 ≤ n := Nat.div_mul_le_self n 16
  have hmain := asmGo_eq (n / 16 * 16) ⟨n / 16, by ring⟩ (n / 16) 0 0 ⟨0, rfl⟩ (by omega)
  have hrem := loopAcc_eq n (n - n / 16 * 16) (n / 16 * 16) (asmGo (n / 16 * 16) (n / 16) 0 0) (by omega)
  rw [hrem, hmain]
  have hsplit := sumLen_add (n / 16 * 16) 0 (n - n / 16 * 16)
  have harg : n / 16 * 16 + (n - n / 16 * 16) = n := by omega
  rw [harg] at hsplit
  simp only [Nat.zero_add, Nat.sub_zero] at hmain hsplit ⊢
  omega

theorem simdGo_eq (limit : ℕ) (hd : 8 ∣ limit) :
    ∀ k i sum, 8 ∣ i → limit ≤ i + 8 * k → simdGo limit k i sum = sum + sumLen i (limit - i) := by
  intro k
  induction k with
  | zero =>
    intro i sum _ h
    have h0 : limit - i = 0 := by omega
    simp [simdGo, h0, sumLen]
  | succ k ih =>
    intro i sum hdi h
    by_cases hi : i < limit
    · have hdsub : 8 ∣ limit - i := Nat.dvd_sub' hd hdi
      have h8 : 8 ≤ limit - i := Nat.le_of_dvd (by omega) hdsub
      have hsplit : sumLen i (limit - i) = sumLen i 8 + sumLen (i + 8) (limit - (i + 8)) := by
        have := sumLen_add 8 i (limit - (i + 8))
        have harg : 8 + (limit - (i + 8)) = limit - i := by omega
        rw [harg] at this
        exact this
      simp only [simdGo, if_pos hi]
      rw [ih (i + 8) _ (by omega) (by omega), hsplit, sumLen_eight]
      ring
    · have h0 : limit - i = 0 := by omega
      simp [simdGo, hi, h0, sumLen]

theorem simdStyle_eq (n : ℕ) : simdStyle n = sumLen 0 n := by
  unfold simdStyle
  have hlim : n / 8 * 8 ≤ n := Nat.div_mul_le_self n 8
  have hmain := simdGo_eq (n / 8 * 8) ⟨n / 8, by ring⟩ (n / 8) 0 0 ⟨0, rfl⟩ (by omega)
  have hrem := loopAcc_eq n (n - n / 8 * 8) (n / 8 * 8) (simdGo (n / 8 * 8) (n / 8) 0 0) (by omega)
  rw [hrem, hmain]
  have hsplit := sumLen_add (n / 8 * 8) 0 (n - n / 8 * 8)
  have harg : n / 8 * 8 + (n - n / 8 * 8) = n := by omega
  rw [harg] at hsplit
  simp only [Nat.zero_add, Nat.sub_zero] at hmain hsplit ⊢
  omega

theorem sumLen_join (s c n : ℕ) :
    sumLen s (min (s + c) n - s) + sumLen (s + c) (n - (s + c)) = sumLen s (n - s) := by
  rcases le_or_lt (s + c) n with hle | hlt
  · have hmin : min (s + c) n = s + c := min_eq_left hle
    have hadd := sumLen_add c s (n - (s + c))
    have harg : c + (n - (s + c)) = n - s := by omega
    rw [harg] at hadd
    have harg2 : s + c - s = c := by omega
    rw [hmin, harg2]
    exact hadd.symm
  · have hmin : min (s + c) n = n := min_eq_right (by omega)
    have h0 : n - (s + c) = 0 := by omega
    rw [hmin, h0]
    simp [sumLen]

theorem taInner_eq (start size : ℕ) :
    ∀ k i sum, size ≤ i + k → taInner start size k i sum = sum + sumLen (start + i) (size - i) := by
  intro k
  induction k with
  | zero =>
    intro i sum h
    have h0 : size - i = 0 := by omega
    simp [taInner, h0, sumLen]
  | succ k ih =>
    intro i sum h
    by_cases hi : i < size
    · have hs : size - i = (size - (i + 1)) + 1 := by omega
      have harg : start + i + 1 = start + (i + 1) := by omega
      simp only [taInner, if_pos hi]
      rw [ih (i + 1) _ (by omega), hs, sumLen_succ, harg]
      ring
    · have h0 : size - i = 0 := by omega
      simp [taInner, hi, h0, sumLen]

theorem lt_ceil_iff (n bs b : ℕ) (hbs : 1 ≤ bs) : b < (n + bs - 1) / bs ↔ b * bs < n := by
  rcases Nat.eq_zero_or_pos n with hn | hn
  · subst hn
    have h0 : (0 + bs - 1) / bs = 0 := Nat.div_eq_of_lt (by omega)
    rw [h0]
    omega
  · rw [Nat.lt_iff_add_one_le, Nat.le_div_iff_mul_le (by omega : 0 < bs)]
    have hb1 : (b + 1) * bs = b * bs + bs := by ring
    rw [hb1]
    omega

theorem ceil_mul_ge (n bs : ℕ) (hbs : 1 ≤ bs) : n ≤ (n + bs - 1) / bs * bs := by
  have h1 := Nat.div_add_mod (n + bs - 1) bs
  have h2 : (n + bs - 1) % bs < bs := Nat.mod_lt _ (by omega)
  have h3 : bs * ((n + bs - 1) / bs) = (n + bs - 1) / bs * bs := by ring
  rw [h3] at h1
  omega

theorem taGo_eq (n bs batches : ℕ) (hbs : 1 ≤ bs) (hB : batches = (n + bs - 1) / bs) :
    ∀ k batch sum, batches ≤ batch + k →
      taGo n bs batches k batch sum = sum + sumLen (batch * bs) (n - batch * bs) := by
  intro k
  induction k with
  | zero =>
    intro batch sum h
    have hge : n ≤ batch * bs := by
      by_contra hc
      push_neg at hc
      have := (lt_ceil_iff n bs batch hbs).mpr hc
      omega
    have h0 : n - batch * bs = 0 := by omega
    simp [taGo, h0, sumLen]
  | succ k ih =>
    intro batch sum h
    by_cases hb : batch < batches
    · have hlt : batch * bs < n := (lt_ceil_iff n bs batch hbs).mp (by omega)
      have hinner := taInner_eq (batch * bs) (min (batch * bs + bs) n - batch * bs)
        (min (batch * bs + bs) n - batch * bs) 0 sum (by omega)
      simp only [taGo, if_pos hb]
      rw [hinner, ih (batch + 1) _ (by omega)]
      have hb1 : (batch + 1) * bs = batch * bs + bs := by ring
      rw [hb1]
      have hjoin := sumLen_join (batch * bs) bs n
      simp only [Nat.add_zero, Nat.sub_zero]
      omega
    · have hge : n ≤ batch * bs := by
        by_contra hc
        push_neg at hc
        have := (lt_ceil_iff n bs batch hbs).mpr hc
        omega
      have h0 : n - batch * bs = 0 := by omega
      simp [taGo, hb, h0, sumLen]

theorem typedArrayOptimal_eq (n : ℕ) : typedArrayOptimal n = sumLen 0 n := by
  unfold typedArrayOptimal
  rcases Nat.eq_zero_or_pos n with hn | hn
  · subst hn
    rfl
  · have hbs : 1 ≤ min config.batchSize n := by
      have : (1 : ℕ) ≤ config.batchSize := by norm_num [config]
      omega
    have hbs0 : ¬ min config.batchSize n = 0 := by omega
    simp only [if_neg hbs0]
    have := taGo_eq n (min config.batchSize n) ((n + min config.batchSize n - 1) / min config.batchSize n)
      hbs rfl ((n + min config.batchSize n - 1) / min config.batchSize n) 0 0 (by omega)
    simpa using this

theorem cfGo_eq (n : ℕ) :
    ∀ k chunk sum, n ≤ chunk + 16000 * k → cfGo n k chunk sum = sum + sumLen chunk (n - chunk) := by
  intro k
  induction k with
  | zero =>
    intro chunk sum h
    have h0 : n - chunk = 0 := by omega
    simp [cfGo, h0, sumLen]
  | succ k ih =>
    intro chunk sum h
    by_cases hc : chunk < n
    · have hinner := loopAcc_eq (min (chunk + 16000) n) (min (chunk + 16000) n - chunk) chunk sum
        (by omega)
      simp only [cfGo, if_pos hc]
      rw [hinner, ih (chunk + 16000) _ (by omega)]
      have hjoin := sumLen_join chunk 16000 n
      omega
    · have h0 : n - chunk = 0 := by omega
      simp [cfGo, hc, h0, sumLen]

theorem cacheFriendly_eq (n : ℕ) : cacheFriendly n = sumLen 0 n := by
  have := cfGo_eq n (n / 16000 + 1) 0 0 (by omega)
  simpa [cacheFriendly] using this

theorem trGo_eq (n : ℕ) :
    ∀ k sum current, n ≤ current + k → trGo n k sum current = sum + sumLen current (n - current) := by
  intro k
  induction k with
  | zero =>
    intro sum current h
    have h0 : n - current = 0 := by omega
    simp [trGo, h0, sumLen]
  | succ k ih =>
    intro sum current h
    by_cases hc : n ≤ current
    · have h0 : n - current = 0 := by omega
      simp [trGo, hc, h0, sumLen]
    · have hs : n - current = (n - (current + 1)) + 1 := by omega
      simp only [trGo, if_neg hc]
      rw [ih _ (current + 1) (by omega), hs, sumLen_succ]
      ring

theorem tailRecursive_eq (n : ℕ) : tailRecursive n = sumLen 0 n := by
  have := trGo_eq n n 0 0 (by omega)
  simpa [tailRecursive] using this

theorem parGo_sum (n c : ℕ) :
    ∀ k i a, n ≤ (i + k) * c →
      ((parGo n c k i).map (fun r => workerSum r.1 r.2)).foldl (fun x y => x + y) a
        = a + sumLen (i * c) (n - i * c) := by
  intro k
  induction k with
  | zero =>
    intro i a h
    have hi : (i + 0) * c = i * c := by ring
    rw [hi] at h
    have h0 : n - i * c = 0 := by omega
    simp [parGo, h0, sumLen]
  | succ k ih =>
    intro i a h
    by_cases hs : n ≤ i * c
    · have h0 : n - i * c = 0 := by omega
      simp [parGo, hs, h0, sumLen]
    · simp only [parGo, if_neg hs, List.map_cons, List.foldl_cons]
      have hbud : n ≤ (i + 1 + k) * c := by
        have h1 : (i + (k + 1)) * c = (i + 1 + k) * c := by ring
        omega
      rw [ih (i + 1) (a + workerSum (i * c) (min (i * c + c) n)) hbud]
      rw [workerSum_eq]
      have hi1 : (i + 1) * c = i * c + c := by ring
      rw [hi1]
      have hjoin := sumLen_join (i * c) c n
      omega

theorem parallelWorkers_eq (n P : ℕ) (hP : 1 ≤ P) : parallelWorkers n P = sumLen 0 n := by
  unfold parallelWorkers parallelRanges
  have hbud : n ≤ (0 + P) * chunkOf n P := by
    have := ceil_mul_ge n P hP
    have h1 : (0 + P) * chunkOf n P = chunkOf n P * P := by ring
    rw [h1]
    exact this
  have := parGo_sum n (chunkOf n P) P 0 0 hbud
  simpa using this

theorem mathFormula_eq (n : ℕ) : mathFormula n = ((sumLen 0 n : ℕ) : ℤ) := by
  unfold mathFormula
  cases n with
  | zero => simp [sumLen]
  | succ m =>
    have h := two_mul_sumLen (m + 1)
    have hcast : ((m : ℤ) + 1) * ((m : ℤ) + 1 - 1) = ((2 * sumLen 0 (m + 1) : ℕ) : ℤ) := by
      rw [h]
      push_cast
      ring
    push_cast
    rw [hcast]
    push_cast
    rw [Int.mul_ediv_cancel_left _ (by norm_num : (2 : ℤ) ≠ 0)]

theorem sumLen_mono (a b : ℕ) (h : a ≤ b) : sumLen 0 a ≤ sumLen 0 b := by
  have := sumLen_add a 0 (b - a)
  have harg : a + (b - a) = b := by omega
  rw [harg] at this
  omega

theorem workerSum_closed (s e : ℕ) : workerSum s e = e * (e - 1) / 2 - s * (s - 1) / 2 := by
  rw [workerSum_eq]
  rcases le_or_lt s e with hle | hlt
  · have := sumLen_add s 0 (e - s)
    have harg : s + (e - s) = e := by omega
    rw [harg] at this
    simp only [Nat.zero_add] at this
    have h1 := sumLen_zero_eq s
    have h2 := sumLen_zero_eq e
    omega
  · have h0 : e - s = 0 := by omega
    have hmono := sumLen_mono e s (by omega)
    have h1 := sumLen_zero_eq s
    have h2 := sumLen_zero_eq e
    simp only [h0, sumLen]
    omega

/-- C1: for every `N ≥ 0` (and every worker count `P ≥ 1` for the parallel
strategy), every summation strategy of the source — `mathFormula`,
`mathFormulaBigInt`, `optimizedLoop`, `assemblyStyleLoop`,
`typedArrayOptimal`, `simdStyle`, `cacheFriendly`, `tailRecursive`, and
`parallelWorkers` together with its worker-thread loop — returns the sum of
the integers `0 .. N-1`, i.e. `N*(N-1)/2` (the worker loop returns the sum
over its half-open range `[s, e)`, i.e. `e*(e-1)/2 - s*(s-1)/2`). -/
theorem c1_all_strategies_sum (n P s e : ℕ) (hP : 1 ≤ P) :
    mathFormula n = ((n * (n - 1) / 2 : ℕ) : ℤ) ∧
    mathFormulaBigInt n = ((n * (n - 1) / 2 : ℕ) : ℤ) ∧
    optimizedLoop n = n * (n - 1) / 2 ∧
    assemblyStyleLoop n = n * (n - 1) / 2 ∧
    typedArrayOptimal n = n * (n - 1) / 2 ∧
    simdStyle n = n * (n - 1) / 2 ∧
    cacheFriendly n = n * (n - 1) / 2 ∧
    tailRecursive n = n * (n - 1) / 2 ∧
    parallelWorkers n P = n * (n - 1) / 2 ∧
    workerSum s e = e * (e - 1) / 2 - s * (s - 1) / 2 := by
  have hT := sumLen_zero_eq n
  refine ⟨?_, ?_, ?_, ?_, ?_, ?_, ?_, ?_, ?_, ?_⟩
  · rw [mathFormula_eq, hT]
  · rw [show mathFormulaBigInt n = mathFormula n from rfl, mathFormula_eq, hT]
  · rw [optimizedLoop_eq, hT]
  · rw [assemblyStyleLoop_eq, hT]
  · rw [typedArrayOptimal_eq, hT]
  · rw [simdStyle_eq, hT]
  · rw [cacheFriendly_eq, hT]
  · rw [tailRecursive_eq, hT]
  · rw [parallelWorkers_eq n P hP, hT]
  · exact workerSum_closed s e

/-- Witness for C1 at `N = 10`, `P = 3`, worker range `[4, 9)`. -/
theorem c1_all_strategies_sum_witness :
    (1 : ℕ) ≤ 3 ∧
    (mathFormula 10 = ((10 * (10 - 1) / 2 : ℕ) : ℤ) ∧
     mathFormulaBigInt 10 = ((10 * (10 - 1) / 2 : ℕ) : ℤ) ∧
     optimizedLoop 10 = 10 * (10 - 1) / 2 ∧
     assemblyStyleLoop 10 = 10 * (10 - 1) / 2 ∧
     typedArrayOptimal 10 = 10 * (10 - 1) / 2 ∧
     simdStyle 10 = 10 * (10 - 1) / 2 ∧
     cacheFriendly 10 = 10 * (10 - 1) / 2 ∧
     tailRecursive 10 = 10 * (10 - 1) / 2 ∧
     parallelWorkers 10 3 = 10 * (10 - 1) / 2 ∧
     workerSum 4 9 = 9 * (9 - 1) / 2 - 4 * (4 - 1) / 2) :=
  ⟨by decide, c1_all_strategies_sum 10 3 4 9 (by decide)⟩

/-- Number of WorkRanges in `rg` that contain the point `x` (a half-open
range `[start, end)` contains `x` iff `start ≤ x < end`).  The claim that
the ranges cover `[0, N)` exactly once with no overlap and no gap is the
statement that this count is 1 for `x < N` and 0 otherwise. -/
def countCovering (rg : List (ℕ × ℕ)) (x : ℕ) : ℕ :=
  (rg.filter (fun r => decide (r.1 ≤ x) && decide (x < r.2))).length

theorem countCovering_nil (x : ℕ) : countCovering [] x = 0 := rfl

theorem countCovering_cons (r : ℕ × ℕ) (l : List (ℕ × ℕ)) (x : ℕ) :
    countCovering (r :: l) x = (if r.1 ≤ x ∧ x < r.2 then 1 else 0) + countCovering l x := by
  by_cases h1 : r.1 ≤ x ∧ x < r.2
  · simp [countCovering, List.filter_cons, h1, Nat.add_comm]
  · rw [Decidable.not_and_iff_or_not] at h1
    rcases h1 with h1 | h1 <;>
      simp [countCovering, List.filter_cons, h1, Decidable.not_and_iff_or_not]

theorem parGo_cover (n c : ℕ) :
    ∀ k i x, n ≤ (i + k) * c →
      countCovering (parGo n c k i) x = if i * c ≤ x ∧ x < n then 1 else 0 := by
  intro k
  induction k with
  | zero =>
    intro i x h
    have hi : (i + 0) * c = i * c := by ring
    rw [hi] at h
    show countCovering [] x = _
    rw [countCovering_nil, if_neg (by omega)]
  | succ k ih =>
    intro i x h
    by_cases hs : n ≤ i * c
    · simp only [parGo, if_pos hs, countCovering_nil]
      rw [if_neg (by omega)]
    · simp only [parGo, if_neg hs]
      rw [countCovering_cons]
      have hbud : n ≤ (i + 1 + k) * c := by
        have h1 : (i + (k + 1)) * c = (i + 1 + k) * c := by ring
        omega
      rw [ih (i + 1) x hbud]
      have h1 : (i + 1) * c = i * c + c := by ring
      rcases le_or_lt (i * c + c) n with hm | hm
      · rw [min_eq_left hm]
        split_ifs <;> omega
      · rw [min_eq_right (by omega)]
        split_ifs <;> omega

theorem parGo_head (n c : ℕ) :
    ∀ k i q l, parGo n c k i = q :: l → q.1 = i * c ∧ i * c < n := by
  intro k
  cases k with
  | zero => intro i q l h; simp [parGo] at h
  | succ k =>
    intro i q l h
    by_cases hs : n ≤ i * c
    · simp [parGo, hs] at h
    · simp only [parGo, if_neg hs] at h
      injection h with h1 _
      exact ⟨by rw [← h1], by omega⟩

theorem parGo_chain (n c : ℕ) :
    ∀ k i, List.Chain' (fun a b : ℕ × ℕ => a.2 = b.1) (parGo n c k i) := by
  intro k
  induction k with
  | zero => intro i; simp [parGo]
  | succ k ih =>
    intro i
    by_cases hs : n ≤ i * c
    · simp [parGo, hs]
    · simp only [parGo, if_neg hs]
      apply List.chain'_cons'.mpr
      refine ⟨?_, ih (i + 1)⟩
      intro b hb
      rcases hr : parGo n c k (i + 1) with _ | ⟨q, l'⟩
      · rw [hr] at hb; simp at hb
      · rw [hr] at hb
        simp only [List.head?_cons, Option.mem_some_iff] at hb
        have hhead := parGo_head n c k (i + 1) q l' hr
        have h1 : (i + 1) * c = i * c + c := by ring
        have hmin : min (i * c + c) n = i * c + c := min_eq_left (by omega)
        show min (i * c + c) n = b.1
        rw [← hb, hmin]
        omega

theorem parGo_len (n c : ℕ) (hc : 1 ≤ c) :
    ∀ k i r, r ∈ parGo n c k i → 1 ≤ r.2 - r.1 ∧ r.2 - r.1 ≤ c := by
  intro k
  induction k with
  | zero => intro i r h; simp [parGo] at h
  | succ k ih =>
    intro i r h
    by_cases hs : n ≤ i * c
    · simp [parGo, hs] at h
    · simp only [parGo, if_neg hs, List.mem_cons] at h
      rcases h with h | h
      · subst h
        show 1 ≤ min (i * c + c) n - i * c ∧ min (i * c + c) n - i * c ≤ c
        rcases le_or_lt (i * c + c) n with hm | hm
        · rw [min_eq_left hm]; omega
        · rw [min_eq_right (by omega)]; omega
      · exact ih (i + 1) r h

theorem parGo_dropLast (n c : ℕ) :
    ∀ k i r, r ∈ (parGo n c k i).dropLast → r.2 - r.1 = c := by
  intro k
  induction k with
  | zero => intro i r h; simp [parGo] at h
  | succ k ih =>
    intro i r h
    by_cases hs : n ≤ i * c
    · simp [parGo, hs] at h
    · simp only [parGo, if_neg hs] at h
      rcases hr : parGo n c k (i + 1) with _ | ⟨q, l'⟩
      · rw [hr] at h; simp at h
      · rw [hr, List.dropLast_cons₂, List.mem_cons] at h
        rcases h with h | h
        · subst h
          have hhead := parGo_head n c k (i + 1) q l' hr
          have h1 : (i + 1) * c = i * c + c := by ring
          show min (i * c + c) n - i * c = c
          rw [min_eq_left (by omega)]
          omega
        · exact ih (i + 1) r (by rw [hr]; exact h)

theorem parallelRanges_zero (P : ℕ) : parallelRanges 0 P = [] := by
  cases P with
  | zero => rfl
  | succ k => simp [parallelRanges, parGo]

/-- C2 (amended): for every `N ≥ 0` and worker count `P ≥ 1`, the WorkRanges
generated by `parallelWorkers` are contiguous and non-overlapping and their
union covers `[0, N)` exactly (every `x < N` lies in exactly one dispatched
range, every `x ≥ N` in none); every dispatched range has length between 1
and `ceil(N/P)`, and every dispatched range except possibly the last has
length exactly `ceil(N/P)`.  (The original claim that every dispatched
range's length differs from `N/P` by at most 1 is false; see the
counterexample.) -/
theorem c2_work_ranges_amended (n P x : ℕ) (r : ℕ × ℕ) (hP : 1 ≤ P) :
    countCovering (parallelRanges n P) x = (if x < n then 1 else 0) ∧
    List.Chain' (fun a b : ℕ × ℕ => a.2 = b.1) (parallelRanges n P) ∧
    (r ∈ parallelRanges n P → 1 ≤ r.2 - r.1 ∧ r.2 - r.1 ≤ chunkOf n P) ∧
    (r ∈ (parallelRanges n P).dropLast → r.2 - r.1 = chunkOf n P) := by
  rcases Nat.eq_zero_or_pos n with hn | hn
  · subst hn
    rw [parallelRanges_zero]
    refine ⟨by rw [countCovering_nil, if_neg (by omega)], by simp, ?_, ?_⟩
    · intro h; simp at h
    · intro h; simp at h
  · have hc : 1 ≤ chunkOf n P := by
      unfold chunkOf
      rw [Nat.le_div_iff_mul_le (by omega : 0 < P)]
      omega
    have hbud : n ≤ (0 + P) * chunkOf n P := by
      have := ceil_mul_ge n P hP
      have h1 : (0 + P) * chunkOf n P = chunkOf n P * P := by ring
      rw [h1]
      exact this
    refine ⟨?_, parGo_chain n (chunkOf n P) P 0, parGo_len n (chunkOf n P) hc P 0 r,
      parGo_dropLast n (chunkOf n P) P 0 r⟩
    have hcov := parGo_cover n (chunkOf n P) P 0 x hbud
    simpa using hcov

/-- Witness for the amended C2 at `N = 10`, `P = 4`, point `x = 9`, range
`r = (9, 10)`. -/
theorem c2_work_ranges_amended_witness :
    countCovering (parallelRanges 10 4) 9 = (if 9 < 10 then 1 else 0) ∧
    List.Chain' (fun a b : ℕ × ℕ => a.2 = b.1) (parallelRanges 10 4) ∧
    ((9, 10) ∈ parallelRanges 10 4 → 1 ≤ 10 - 9 ∧ 10 - 9 ≤ chunkOf 10 4) ∧
    ((9, 10) ∈ (parallelRanges 10 4).dropLast → 10 - 9 = chunkOf 10 4) :=
  c2_work_ranges_amended 10 4 9 (9, 10) (by decide)

/-- Counterexample for C2 as stated: at `N = 100`, `P = 7` the partitioner
dispatches the range `[90, 100)` of length 10, and `|10 - 100/7| > 1` under
the rational reading of `N/P` as well as under its floor (`100/7 = 14`) and
ceiling (`⌈100/7⌉ = 15`) integer readings, so the dispatched range lengths
do not all differ from `N/P` by at most 1. -/
theorem c2_counterexample :
    (90, 100) ∈ parallelRanges 100 7 ∧
    ¬ |((100 - 90 : ℕ) : ℚ) - (100 : ℚ) / 7| ≤ 1 ∧
    ¬ ((100 : ℕ) / 7 - (100 - 90) ≤ 1 ∧ (100 - 90) - (100 : ℕ) / 7 ≤ 1) ∧
    ¬ (chunkOf 100 7 - (100 - 90) ≤ 1 ∧ (100 - 90) - chunkOf 100 7 ≤ 1) := by
  refine ⟨by decide, ?_, by decide, by decide⟩
  rw [show ((100 - 90 : ℕ) : ℚ) - (100 : ℚ) / 7 = -(30 / 7) by norm_num]
  rw [abs_neg, abs_of_nonneg (by norm_num)]
  norm_num

/-- Fuel-driven floor of the binary logarithm; `log2fuel f m` equals
`floor (log2 m)` whenever `f ≥ m` (the recursion halves `m`, so `m`
itself is always enough fuel).  Used by the binary64 rounding model. -/
def log2fuel : ℕ → ℕ → ℕ
  | 0, _ => 0
  | f + 1, m => if m < 2 then 0 else log2fuel f (m / 2) + 1

/-- Round a nonnegative integer to the nearest IEEE-754 binary64 value,
round-to-nearest with ties to even.  An integer `m > 2^53` lies in
`[2^k, 2^(k+1))` with `k = floor (log2 m) ≥ 53`, where the representable
binary64 values are exactly the multiples of `2^(k-52)`; integers up to
`2^53` are exact.  (Overflow to infinity, beyond `2^1024`, does not occur
for the values analysed here and is not modelled.) -/
def round64 (m : ℕ) : ℕ :=
  if m ≤ 2 ^ 53 then m
  else
    let e := log2fuel m m - 52
    let q := m / 2 ^ e
    let r := m % 2 ^ e
    if r < 2 ^ (e - 1) then q * 2 ^ e
    else if 2 ^ (e - 1) < r then (q + 1) * 2 ^ e
    else (if q % 2 = 0 then q else q + 1) * 2 ^ e

/-- IEEE-754 binary64 evaluation of `mathFormula` (source line 106,
`(n * (n - 1)) / 2` on JS numbers): for `n ≤ 2^53` the operands `n` and
`n - 1` are exactly representable; the product is then correctly rounded,
giving `round64 (n * (n - 1))`; that value is even (the exact product
`n * (n - 1)` is even, and rounding to a multiple of `2^e` with `e ≥ 1`
preserves evenness), so the division by 2 is an exact halving followed by
rounding. -/
def mathFormulaFloat (n : ℕ) : ℕ := round64 (round64 (n * (n - 1)) / 2)

/-- C9: evaluated in IEEE-754 binary64 arithmetic (the JS `number` type),
`mathFormula` at `N = 1e9` suffers no silent overflow or precision loss:
the product `999999999000000000` is divisible by `2^9` and lies below
`2^60`, so it and its half are exactly representable, and the result is
the exact integer `499999999500000000`, agreeing with the ideal integer
evaluation and with the arbitrary-precision `mathFormulaBigInt`. -/
theorem c9_math_formula_exact_at_1e9 :
    mathFormulaFloat 1000000000 = 499999999500000000 ∧
    mathFormula 1000000000 = 499999999500000000 ∧
    mathFormulaBigInt 1000000000 = 499999999500000000 ∧
    (mathFormulaFloat 1000000000 : ℤ) = mathFormulaBigInt 1000000000 := by
  refine ⟨by decide, by decide, by decide, by decide⟩

/-- A JS `number` holding a timing value: finite (modelled as an exact
rational), the `Infinity` that `runBenchmark` stores for failed strategies,
or `NaN` (which keeps the division model total; it never arises in the
configurations analysed here). -/
inductive BTime where
  | fin (q : ℚ)
  | inf
  | nan
deriving DecidableEq

/-- True exactly for a finite strictly positive timing value. -/
def BTime.isFinPos : BTime → Bool
  | .fin q => decide (0 < q)
  | _ => false

/-- Mirror of the `BenchmarkResult` interface (source lines 60-67): name,
mean elapsed time (ms), numeric result (`number | bigint`, both exact
integers here), memory delta (MB), operations per second, and the optional
error marker. -/
structure BenchmarkResult where
  name : String
  time : BTime
  result : ℤ
  memoryUsed : ℚ
  opsPerSecond : ℚ
  error : Option String
deriving DecidableEq

/-- Boolean order on timing values modelling the sort comparator
`(a, b) => a.time - b.time` of `formatResults` (source line 470): finite
values compare by value and precede `Infinity`.  `formatResults` only sorts
error-free results, whose times are finite; the placement of `nan` (below
everything) is a modelling choice needed only for totality, since the JS
comparator is not well defined on `NaN`. -/
def btLe : BTime → BTime → Bool
  | .nan, _ => true
  | .fin _, .nan => false
  | .inf, .nan => false
  | .fin a, .fin b => decide (a ≤ b)
  | .fin _, .inf => true
  | .inf, .fin _ => false
  | .inf, .inf => true

/-- JS division of two timing values, modelling
`fastest.time / result.time` (source line 486).  On the finite positive
times that occur in ranking this is exact rational division; the other
cases follow IEEE-754 (`x/0 = Infinity` for `x > 0`, `0/0 = NaN`,
`Infinity/Infinity = NaN`, `x/Infinity = 0`; negative times never arise,
so signs are ignored). -/
def btDiv : BTime → BTime → BTime
  | .nan, _ => .nan
  | _, .nan => .nan
  | .fin a, .fin b => if b = 0 then (if a = 0 then .nan else .inf) else .fin (a / b)
  | .inf, .fin _ => .inf
  | .fin _, .inf => .fin 0
  | .inf, .inf => .nan

/-- Insertion step of the stable sort used to model
`[...validResults].sort((a, b) => a.time - b.time)` (source line 470).
JS `Array.prototype.sort` is stable, and a stable sort is uniquely
determined by the comparator, so insertion sort is an exact model. -/
def insertByTime (r : BenchmarkResult) : List BenchmarkResult → List BenchmarkResult
  | [] => [r]
  | x :: xs => if btLe r.time x.time then r :: x :: xs else x :: insertByTime r xs

/-- Stable sort by mean elapsed time (source line 470). -/
def sortByTime : List BenchmarkResult → List BenchmarkResult
  | [] => []
  | x :: xs => insertByTime x (sortByTime xs)

/-- `validResults = results.filter(r => !r.error)` (source line 461). -/
def validOf (rs : List BenchmarkResult) : List BenchmarkResult :=
  rs.filter (fun r => r.error.isNone)

/-- `sortedResults` (source line 470): the error-free results sorted
ascending by mean time. -/
def rankedOf (rs : List BenchmarkResult) : List BenchmarkResult :=
  sortByTime (validOf rs)

/-- `fastest = sortedResults[0]` together with its null check
(source lines 471-476). -/
def fastestOf (rs : List BenchmarkResult) : Option BenchmarkResult :=
  (rankedOf rs).head?

/-- The speedup column, in ranked order: for each ranked result,
`fastest.time / result.time` (source line 486). -/
def speedupsOf (rs : List BenchmarkResult) : List BTime :=
  match fastestOf rs with
  | none => []
  | some f => (rankedOf rs).map (fun r => btDiv f.time r.time)

/-- Model of `new Set(validResults.map(r => r.result.toString()))`
(source line 516): the deduplicated list of decimal string representations
of the error-free results' numeric values.  JS integer `toString` and
bigint `toString` both produce the plain decimal digits for every
magnitude that occurs in this program, so `Int` `toString` is a faithful
model and the dedup length equals the JS set's size. -/
def uniqueResults (rs : List BenchmarkResult) : List String :=
  ((validOf rs).map (fun r => toString r.result)).dedup

/-- Outcome of `formatResults` (source lines 455-524) as far as the
verification contract is concerned: early return with no successful
benchmarks, verification pass, or verification mismatch. -/
inductive FormatOutcome where
  | noValid
  | pass
  | mismatch
deriving DecidableEq

/-- Verification verdict of `formatResults`: early return when
`validResults.length === 0` (source lines 464-467), otherwise pass iff
`uniqueResults.size === 1` (source lines 516-523). -/
def formatVerdict (rs : List BenchmarkResult) : FormatOutcome :=
  if validOf rs = [] then .noValid
  else if (uniqueResults rs).length = 1 then .pass
  else .mismatch

theorem btLe_total (a b : BTime) : btLe a b = true ∨ btLe b a = true := by
  cases a <;> cases b <;> simp [btLe] <;> exact le_total _ _

theorem btLe_trans (a b c : BTime) (h1 : btLe a b = true) (h2 : btLe b c = true) :
    btLe a c = true := by
  cases a <;> cases b <;> cases c <;> simp_all [btLe] <;> exact le_trans h1 h2

theorem btLe_refl (a : BTime) : btLe a a = true := by
  cases a <;> simp [btLe]

theorem perm_insertByTime (r : BenchmarkResult) (l : List BenchmarkResult) :
    (insertByTime r l).Perm (r :: l) := by
  induction l with
  | nil => exact List.Perm.refl _
  | cons x xs ih =>
    by_cases h : btLe r.time x.time
    · simp [insertByTime, h]
    · simp only [insertByTime, if_neg h]
      exact (ih.cons x).trans (List.Perm.swap r x xs)

theorem perm_sortByTime (l : List BenchmarkResult) : (sortByTime l).Perm l := by
  induction l with
  | nil => exact List.Perm.refl _
  | cons x xs ih => exact (perm_insertByTime x (sortByTime xs)).trans (ih.cons x)

theorem sorted_insertByTime (r : BenchmarkResult) (l : List BenchmarkResult)
    (h : List.Pairwise (fun a b => btLe a.time b.time = true) l) :
    List.Pairwise (fun a b => btLe a.time b.time = true) (insertByTime r l) := by
  induction l with
  | nil => simp [insertByTime]
  | cons x xs ih =>
    rcases List.pairwise_cons.mp h with ⟨hx, hxs⟩
    by_cases hle : btLe r.time x.time
    · simp only [insertByTime, if_pos hle]
      refine List.pairwise_cons.mpr ⟨?_, h⟩
      intro b hb
      rcases List.mem_cons.mp hb with rfl | hb
      · exact hle
      · exact btLe_trans _ _ _ hle (hx b hb)
    · simp only [insertByTime, if_neg hle]
      have hxr : btLe x.time r.time = true := by
        rcases btLe_total r.time x.time with h1 | h1
        · exact absurd h1 hle
        · exact h1
      refine List.pairwise_cons.mpr ⟨?_, ih hxs⟩
      intro b hb
      have hb' : b ∈ r :: xs := (perm_insertByTime r xs).mem_iff.mp hb
      rcases List.mem_cons.mp hb' with rfl | hb'
      · exact hxr
      · exact hx b hb'

theorem sorted_sortByTime (l : List BenchmarkResult) :
    List.Pairwise (fun a b => btLe a.time b.time = true) (sortByTime l) := by
  induction l with
  | nil => simp [sortByTime]
  | cons x xs ih => exact sorted_insertByTime x (sortByTime xs) ih

theorem fastest_btLe (rs : List BenchmarkResult) (f : BenchmarkResult)
    (hf : fastestOf rs = some f) (r : BenchmarkResult) (hr : r ∈ rankedOf rs) :
    btLe f.time r.time = true := by
  unfold fastestOf at hf
  rcases hl : rankedOf rs with _ | ⟨a, l⟩
  · rw [hl] at hf; simp at hf
  · rw [hl] at hf hr
    simp only [List.head?_cons, Option.some.injEq] at hf
    subst hf
    have hp := sorted_sortByTime (validOf rs)
    rw [show sortByTime (validOf rs) = rankedOf rs from rfl, hl] at hp
    rcases List.mem_cons.mp hr with rfl | hr
    · exact btLe_refl _
    · exact (List.pairwise_cons.mp hp).1 r hr

theorem validOf_idem (rs : List BenchmarkResult) : validOf (validOf rs) = validOf rs := by
  simp [validOf, List.filter_filter]

/-- C6: for every list of BenchmarkResults, the verification step collects
the string representation of each succeeded (error-free) result's value
into a set and reports pass if and only if that set has size exactly 1;
when the size is greater than 1 it reports a verification mismatch; and
failed results do not participate (the set computed from the full list is
the set computed from the error-free sublist). -/
theorem c6_verification_set (rs : List BenchmarkResult) :
    (formatVerdict rs = .pass ↔ (uniqueResults rs).length = 1) ∧
    (1 < (uniqueResults rs).length → formatVerdict rs = .mismatch) ∧
    uniqueResults rs = uniqueResults (validOf rs) := by
  refine ⟨?_, ?_, ?_⟩
  · unfold formatVerdict
    by_cases hv : validOf rs = []
    · rw [if_pos hv]
      have h0 : uniqueResults rs = [] := by
        simp [uniqueResults, hv]
      rw [h0]
      simp
    · rw [if_neg hv]
      by_cases hlen : (uniqueResults rs).length = 1
      · rw [if_pos hlen]
        simp [hlen]
      · rw [if_neg hlen]
        simp [hlen]
  · intro hgt
    unfold formatVerdict
    have hv : ¬ validOf rs = [] := by
      intro hv
      rw [show uniqueResults rs = [] by simp [uniqueResults, hv]] at hgt
      simp at hgt
    rw [if_neg hv, if_neg (by omega)]
  · unfold uniqueResults
    rw [validOf_idem]

/-- A sample result list with two distinct succeeded values and one failed
result; used to witness the verification and error-handling theorems. -/
def exMixed : List BenchmarkResult :=
  [⟨"a", .fin 1, 3, 0, 0, none⟩, ⟨"b", .fin 2, 4, 0, 0, none⟩,
   ⟨"c", .inf, 0, 0, 0, some "boom"⟩]

/-- Witness for C6: on `exMixed` the unique-value set has size 2, and
applying the theorem yields the mismatch verdict. -/
theorem c6_verification_set_witness : formatVerdict exMixed = .mismatch :=
  (c6_verification_set exMixed).2.1 (by decide)

/-- A succeeded result with mean time 50ms. -/
def sampleA : BenchmarkResult := ⟨"A", .fin 50, 42, 0, 0, none⟩

/-- A succeeded result with mean time 10ms. -/
def sampleB : BenchmarkResult := ⟨"B", .fin 10, 42, 0, 0, none⟩

/-- A succeeded result with mean time 100ms. -/
def sampleC : BenchmarkResult := ⟨"C", .fin 100, 42, 0, 0, none⟩

/-- Three succeeded results with mean times 50ms, 10ms and 100ms, in that
order (the scenario of C7). -/
def sampleResults : List BenchmarkResult := [sampleA, sampleB, sampleC]

theorem ranked_sample : rankedOf sampleResults = [sampleB, sampleA, sampleC] := by decide

theorem fastest_sample : fastestOf sampleResults = some sampleB := by decide

theorem speedups_sample :
    speedupsOf sampleResults = [.fin 1, .fin (1 / 5), .fin (1 / 10)] := by
  unfold speedupsOf
  rw [fastest_sample, ranked_sample]
  simp only [List.map, sampleA, sampleB, sampleC]
  norm_num [btDiv]

/-- Counterexample for C7 as stated: with mean times [50ms, 10ms, 100ms]
the ranking does sort to [10ms, 50ms, 100ms], but the speedups computed by
the code (`fastest.time / result.time`, source line 486) are
[1, 1/5, 1/10], not the claimed [1, 5, 10]. -/
theorem c7_counterexample :
    ¬ ((rankedOf sampleResults).map (fun r => r.time) = [.fin 10, .fin 50, .fin 100] ∧
       speedupsOf sampleResults = [.fin 1, .fin 5, .fin 10]) := by
  intro h
  have h2 := h.2
  rw [speedups_sample] at h2
  simp only [List.cons.injEq, BTime.fin.injEq] at h2
  exact absurd h2.2.1 (by norm_num)

/-- C7 (amended): given three succeeded results with mean times 50ms, 10ms
and 100ms, the ranking sorts them into the order [10ms, 50ms, 100ms] and
the speedups computed for them in that order (`fastest.time / result.time`
relative to the fastest, 10ms) are [1.00x, 0.20x, 0.10x]. -/
theorem c7_ranking_example_amended :
    (rankedOf sampleResults).map (fun r => r.time) = [.fin 10, .fin 50, .fin 100] ∧
    speedupsOf sampleResults = [.fin 1, .fin (1 / 5), .fin (1 / 10)] := by
  refine ⟨?_, speedups_sample⟩
  rw [ranked_sample]
  decide

/-- C8: for every non-empty list of succeeded (error-free) BenchmarkResults
with the finite positive mean times that measurement produces, the ranking
sorts them ascending by mean elapsed time into a permutation of the input,
the first sorted element (the "fastest") has minimal time among them, each
ranked result's speedup is `fastest.time / result.time`, and the fastest
result's own speedup is 1.0. -/
theorem c8_ranking_speedups (rs : List BenchmarkResult) (f r : BenchmarkResult)
    (hne : rs ≠ [])
    (herr : (rs.all fun x => x.error.isNone) = true)
    (hfin : (rs.all fun x => x.time.isFinPos) = true)
    (hf : fastestOf rs = some f) (hr : r ∈ rankedOf rs) :
    List.Pairwise (fun a b => btLe a.time b.time = true) (rankedOf rs) ∧
    (rankedOf rs).Perm rs ∧
    btLe f.time r.time = true ∧
    speedupsOf rs = (rankedOf rs).map (fun x => btDiv f.time x.time) ∧
    btDiv f.time f.time = BTime.fin 1 := by
  have hval : validOf rs = rs := by
    apply List.filter_eq_self.mpr
    intro a ha
    exact (List.all_eq_true.mp herr) a ha
  have hperm : (rankedOf rs).Perm rs := by
    unfold rankedOf
    rw [hval]
    exact perm_sortByTime rs
  have hfmem : f ∈ rankedOf rs := by
    unfold fastestOf at hf
    exact List.mem_of_mem_head? hf
  have hfrs : f ∈ rs := hperm.mem_iff.mp hfmem
  have hfpos : f.time.isFinPos = true := (List.all_eq_true.mp hfin) f hfrs
  refine ⟨sorted_sortByTime (validOf rs), hperm, fastest_btLe rs f hf r hr, ?_, ?_⟩
  · unfold speedupsOf
    rw [hf]
  · rcases hft : f.time with q | _ | _ <;> rw [hft] at hfpos <;> simp [BTime.isFinPos] at hfpos
    simp only [btDiv]
    rw [if_neg hfpos.ne', div_self hfpos.ne']

/-- Witness for C8 on `sampleResults` with fastest `sampleB` and ranked
member `sampleA`. -/
theorem c8_ranking_speedups_witness :
    List.Pairwise (fun a b => btLe a.time b.time = true) (rankedOf sampleResults) ∧
    (rankedOf sampleResults).Perm sampleResults ∧
    btLe sampleB.time sampleA.time = true ∧
    speedupsOf sampleResults = (rankedOf sampleResults).map (fun x => btDiv sampleB.time x.time) ∧
    btDiv sampleB.time sampleB.time = BTime.fin 1 :=
  c8_ranking_speedups sampleResults sampleB sampleA (by decide) (by decide) (by decide)
    (by decide) (by decide)

/-- The worker timeout constant of `createWorker` (source line 274):
5 minutes in milliseconds. -/
def workerTimeoutMs : ℕ := 300000

/-- What a spawned worker does, as observed through the events of
`createWorker` (source lines 265-293): it posts a numeric message, raises
an error, exceeds the timeout, or exits with a code. -/
inductive WorkerEvent where
  | msg (v : ℤ)
  | err (s : String)
  | timeout
  | exitCode (c : ℕ)
deriving DecidableEq

/-- How `createWorker`'s promise settles on each event (source lines
265-293): a message resolves with the partial sum; an error rejects with
its message; the timeout rejects with "Worker timeout"; a non-zero exit
code rejects with the exit-code message; exit code 0 without a prior
message settles nothing (the timeout has been cleared, so the promise
stays pending — `none`). -/
def settleEvent : WorkerEvent → Option (Except String ℤ)
  | .msg v => some (Except.ok v)
  | .err s => some (Except.error s)
  | .timeout => some (Except.error "Worker timeout")
  | .exitCode c =>
    if c = 0 then none
    else some (Except.error ("Worker stopped with exit code " ++ toString c))

/-- True for the events that make a worker fail: a raised error, the
timeout, or a non-zero exit code. -/
def workerFailed : WorkerEvent → Bool
  | .msg _ => false
  | .err _ => true
  | .timeout => true
  | .exitCode c => decide (c ≠ 0)

/-- The first rejection among the workers' events, if any (the rejection
`Promise.all` propagates). -/
def firstError (events : List WorkerEvent) : Option String :=
  events.findSome? fun ev =>
    match settleEvent ev with
    | some (Except.error e) => some e
    | _ => none

/-- All workers' resolved values, if every worker resolved. -/
def allValues (events : List WorkerEvent) : Option (List ℤ) :=
  events.mapM fun ev =>
    match settleEvent ev with
    | some (Except.ok v) => some v
    | _ => none

/-- Model of `await Promise.all(promises)` followed by the reduce in
`parallelWorkers` (source lines 258-259): if some worker rejects, the whole
strategy rejects with that error; if all resolve, it resolves with the sum
of the partial results; otherwise (a worker stays pending) it never
settles (`none`). -/
def promiseAll (events : List WorkerEvent) : Option (Except String ℤ) :=
  match firstError events with
  | some e => some (Except.error e)
  | none =>
    match allValues events with
    | some vs => some (Except.ok (vs.foldl (fun a b => a + b) 0))
    | none => none

theorem firstError_isSome (events : List WorkerEvent) :
    (firstError events).isSome = events.any workerFailed := by
  induction events with
  | nil => rfl
  | cons ev rest ih =>
    cases ev with
    | msg v => simpa [firstError, workerFailed, settleEvent, List.findSome?] using ih
    | err s => simp [firstError, workerFailed, settleEvent, List.findSome?]
    | timeout => simp [firstError, workerFailed, settleEvent, List.findSome?]
    | exitCode c =>
      rcases Nat.eq_zero_or_pos c with hc | hc
      · subst hc
        simpa [firstError, workerFailed, settleEvent, List.findSome?] using ih
      · simp [firstError, workerFailed, settleEvent, List.findSome?, Nat.pos_iff_ne_zero.mp hc]

/-- `{ name, time: Infinity, result: 0, memoryUsed: 0, opsPerSecond: 0,
error }` — the result the catch branch of `runBenchmark` returns
(source lines 443-450). -/
def errResult (nm e : String) : BenchmarkResult := ⟨nm, .inf, 0, 0, 0, some e⟩

/-- Model of a loop of `k` sequential `await fn(size)` calls: returns the
list of sizes actually invoked and the first thrown error, stopping at the
first throw (later calls are not made once an exception aborts the loop). -/
def runCalls (fn : ℚ → Except String ℤ) : ℕ → ℚ → List ℚ × Option String
  | 0, _ => ([], none)
  | k + 1, sz =>
    match fn sz with
    | Except.error e => ([sz], some e)
    | Except.ok _ =>
      let p := runCalls fn k sz
      (sz :: p.1, p.2)

/-- `finalResult` after the measurement loop: the value of the last
successful `fn(n)` call (0 — its initialisation value — if `fn` throws). -/
def lastOk (fn : ℚ → Except String ℤ) (sz : ℚ) : ℤ :=
  match fn sz with
  | Except.ok v => v
  | Except.error _ => 0

/-- Model of `runBenchmark` (source lines 384-452).  A strategy is a
function from the input size to a value or a thrown error (sizes are
rationals because the warmup size `n / 100` is a JS float division).  The
ambient quantities the model cannot compute are parameters: `times` is the
list of wall-clock durations `performance.now()` measures for the
`config.testRuns` measured runs, and `memBefore`/`memAfter` are the heap
readings around the measurement phase.  In development mode (`dev`) the
warmup phase is skipped.  Returns the list of sizes `fn` was invoked on
(warmup then measurement, stopping at the first throw) together with the
`BenchmarkResult`: on success the mean measured time, the final result,
the memory delta and `opsPerSecond = n / (avgTime / 1000)`; on a throw the
catch branch's error result. -/
def runBenchmarkT (fn : ℚ → Except String ℤ) (nm : String) (n : ℚ) (times : List ℚ)
    (dev : Bool) (memBefore memAfter : ℚ) : List ℚ × BenchmarkResult :=
  let warmupSize := min (n / 100) 1000000
  let warm := if dev then ([], none) else runCalls fn config.warmupRuns warmupSize
  match warm.2 with
  | some e => (warm.1, errResult nm e)
  | none =>
    let meas := runCalls fn config.testRuns n
    match meas.2 with
    | some e => (warm.1 ++ meas.1, errResult nm e)
    | none =>
      let avgTime := times.sum / (times.length : ℚ)
      (warm.1 ++ meas.1,
        ⟨nm, .fin avgTime, lastOk fn n, memAfter - memBefore, n / (avgTime / 1000), none⟩)

/-- Model of the benchmark loop of `main` (source lines 585-607): every
entry of the benchmark list is run with `runBenchmark` and contributes
exactly one result to `results` (`runBenchmark` catches every strategy
exception internally, so the loop never skips an entry). -/
def runSuite (benchmarks : List (String × (ℚ → Except String ℤ))) (n : ℚ) (times : List ℚ)
    (dev : Bool) (memBefore memAfter : ℚ) : List BenchmarkResult :=
  benchmarks.map fun b => (runBenchmarkT b.2 b.1 n times dev memBefore memAfter).2

theorem runCalls_ok (fn : ℚ → Except String ℤ) (sz : ℚ) (v : ℤ) (h : fn sz = Except.ok v) :
    ∀ k, runCalls fn k sz = (List.replicate k sz, none) := by
  intro k
  induction k with
  | zero => rfl
  | succ k ih => simp [runCalls, h, ih, List.replicate]

theorem runCalls_error (fn : ℚ → Except String ℤ) (sz : ℚ) (e : String)
    (h : fn sz = Except.error e) (k : ℕ) :
    runCalls fn (k + 1) sz = ([sz], some e) := by
  simp [runCalls, h]

/-- C4: if any parallel worker raises an error, exceeds the 5-minute
timeout (`workerTimeoutMs = 300000` ms), or exits with a non-zero code,
then `createWorker`'s promise rejects (`firstError` is the first such
rejection, and it exists exactly when some worker failed), `Promise.all` —
and with it the whole parallel strategy — rejects with that error instead
of resolving to a partial sum, and the `BenchmarkResult` that
`runBenchmark` builds for the rejected strategy carries the error marker
with result 0 and infinite time, so no partially-summed numeric value is
presented as valid. -/
theorem c4_worker_failure (events : List WorkerEvent) (nm : String) (n : ℚ)
    (times : List ℚ) (memBefore memAfter : ℚ) (e : String)
    (hfe : firstError events = some e) :
    (firstError events).isSome = events.any workerFailed ∧
    promiseAll events = some (Except.error e) ∧
    (runBenchmarkT (fun _ => Except.error e) nm n times false memBefore memAfter).2.error = some e ∧
    (runBenchmarkT (fun _ => Except.error e) nm n times false memBefore memAfter).2.result = 0 ∧
    (runBenchmarkT (fun _ => Except.error e) nm n times false memBefore memAfter).2.time = BTime.inf ∧
    workerTimeoutMs = 5 * 60 * 1000 := by
  have hres : (runBenchmarkT (fun _ => Except.error e) nm n times false memBefore memAfter).2 =
      errResult nm e := by
    have hwarm : runCalls (fun _ => Except.error e) config.warmupRuns (min (n / 100) 1000000) =
        ([min (n / 100) 1000000], some e) := by
      rw [show config.warmupRuns = 3 from rfl]
      exact runCalls_error _ _ e rfl 2
    simp [runBenchmarkT, hwarm]
  refine ⟨firstError_isSome events, ?_, ?_, ?_, ?_, rfl⟩
  · simp [promiseAll, hfe]
  · rw [hres]; rfl
  · rw [hres]; rfl
  · rw [hres]; rfl

/-- Witness for C4: a worker posts a partial sum but another worker times
out; the parallel strategy as a whole fails with "Worker timeout" and its
benchmark result carries the error with result 0 and infinite time. -/
theorem c4_worker_failure_witness :
    (firstError [WorkerEvent.msg 5, WorkerEvent.timeout]).isSome =
      ([WorkerEvent.msg 5, WorkerEvent.timeout].any workerFailed) ∧
    promiseAll [WorkerEvent.msg 5, WorkerEvent.timeout] =
      some (Except.error "Worker timeout") ∧
    (runBenchmarkT (fun _ => Except.error "Worker timeout") "Parallel Workers" 10 [1, 1, 1, 1, 1]
      false 0 0).2.error = some "Worker timeout" ∧
    (runBenchmarkT (fun _ => Except.error "Worker timeout") "Parallel Workers" 10 [1, 1, 1, 1, 1]
      false 0 0).2.result = 0 ∧
    (runBenchmarkT (fun _ => Except.error "Worker timeout") "Parallel Workers" 10 [1, 1, 1, 1, 1]
      false 0 0).2.time = BTime.inf ∧
    workerTimeoutMs = 5 * 60 * 1000 :=
  c4_worker_failure [WorkerEvent.msg 5, WorkerEvent.timeout] "Parallel Workers" 10
    [1, 1, 1, 1, 1] 0 0 "Worker timeout" (by decide)

/-- C5: for every strategy function and every exception it raises during
warmup or during measurement, `runBenchmark` returns — rather than
propagating the exception — a `BenchmarkResult` whose error field is set,
whose time is `Infinity` and whose result is the initialisation value 0,
and the benchmark loop of `main` still produces exactly one result per
benchmark entry, so the suite continues with the remaining strategies. -/
theorem c5_run_benchmark_catches (fn : ℚ → Except String ℤ) (nm : String) (n : ℚ)
    (times : List ℚ) (dev : Bool) (memBefore memAfter : ℚ) (e : String)
    (benchmarks : List (String × (ℚ → Except String ℤ)))
    (h : (dev = false ∧ fn (min (n / 100) 1000000) = Except.error e) ∨ fn n = Except.error e) :
    (runBenchmarkT fn nm n times dev memBefore memAfter).2.error.isSome = true ∧
    (runBenchmarkT fn nm n times dev memBefore memAfter).2.time = BTime.inf ∧
    (runBenchmarkT fn nm n times dev memBefore memAfter).2.result = 0 ∧
    (runSuite benchmarks n times dev memBefore memAfter).length = benchmarks.length := by
  have hlen : (runSuite benchmarks n times dev memBefore memAfter).length =
      benchmarks.length := by
    simp [runSuite]
  suffices hs : ∃ x, (runBenchmarkT fn nm n times dev memBefore memAfter).2 = errResult nm x by
    rcases hs with ⟨x, hx⟩
    rw [hx]
    exact ⟨rfl, rfl, rfl, hlen⟩
  cases dev with
  | true =>
    rcases h with ⟨hff, _⟩ | hn
    · exact absurd hff (by simp)
    · have hmeas : runCalls fn config.testRuns n = ([n], some e) := by
        rw [show config.testRuns = 5 from rfl]
        exact runCalls_error fn n e hn 4
      exact ⟨e, by simp [runBenchmarkT, hmeas]⟩
  | false =>
    rcases hw : fn (min (n / 100) 1000000) with x | v
    · -- warmup throws with error x
      have hwarm : runCalls fn config.warmupRuns (min (n / 100) 1000000) =
          ([min (n / 100) 1000000], some x) := by
        rw [show config.warmupRuns = 3 from rfl]
        exact runCalls_error fn _ x hw 2
      exact ⟨x, by simp [runBenchmarkT, hwarm]⟩
    · -- warmup succeeds, so the exception is raised at the full size
      have hn : fn n = Except.error e := by
        rcases h with ⟨_, hwe⟩ | hn
        · rw [hw] at hwe; cases hwe
        · exact hn
      have hwarm : runCalls fn config.warmupRuns (min (n / 100) 1000000) =
          (List.replicate config.warmupRuns (min (n / 100) 1000000), none) :=
        runCalls_ok fn _ v hw config.warmupRuns
      have hmeas : runCalls fn config.testRuns n = ([n], some e) := by
        rw [show config.testRuns = 5 from rfl]
        exact runCalls_error fn n e hn 4
      exact ⟨e, by simp [runBenchmarkT, hwarm, hmeas]⟩

/-- A strategy that always throws, used as witness input. -/
def failingStrategy : ℚ → Except String ℤ := fun _ => Except.error "kaboom"

/-- Witness for C5: `failingStrategy` throws during warmup; its benchmark
result carries the error with infinite time and result 0, and a suite
containing it still yields one result per entry. -/
theorem c5_run_benchmark_catches_witness :
    (runBenchmarkT failingStrategy "Bad" 100 [1, 1, 1, 1, 1] false 0 0).2.error.isSome = true ∧
    (runBenchmarkT failingStrategy "Bad" 100 [1, 1, 1, 1, 1] false 0 0).2.time = BTime.inf ∧
    (runBenchmarkT failingStrategy "Bad" 100 [1, 1, 1, 1, 1] false 0 0).2.result = 0 ∧
    (runSuite [("Bad", failingStrategy)] 100 [1, 1, 1, 1, 1] false 0 0).length =
      [("Bad", failingStrategy)].length :=
  c5_run_benchmark_catches failingStrategy "Bad" 100 [1, 1, 1, 1, 1] false 0 0 "kaboom"
    [("Bad", failingStrategy)] (Or.inl ⟨rfl, rfl⟩)

/-- C10: when not in development mode and the strategy does not throw,
`runBenchmark` first invokes the strategy exactly `config.warmupRuns = 3`
times at the reduced size `min(N/100, 1e6)`, discarding those results, then
invokes it exactly `config.testRuns = 5` times at the full size `N`; the
returned result's time is the arithmetic mean of the 5 measured elapsed
times, its value is the strategy's result at `N`, its memory delta is
heap-after minus heap-before, its throughput is `N / (avgTime / 1000)`
operations per second, and no error is recorded. -/
theorem c10_protocol (fn : ℚ → Except String ℤ) (nm : String) (n : ℚ)
    (times : List ℚ) (memBefore memAfter : ℚ) (a v : ℤ)
    (hw : fn (min (n / 100) 1000000) = Except.ok a) (hn : fn n = Except.ok v)
    (hlen : times.length = config.testRuns) :
    (runBenchmarkT fn nm n times false memBefore memAfter).1 =
      List.replicate config.warmupRuns (min (n / 100) 1000000) ++
        List.replicate config.testRuns n ∧
    config.warmupRuns = 3 ∧ config.testRuns = 5 ∧
    (runBenchmarkT fn nm n times false memBefore memAfter).2 =
      ⟨nm, .fin (times.sum / 5), v, memAfter - memBefore,
        n / ((times.sum / 5) / 1000), none⟩ := by
  have hwarm := runCalls_ok fn _ a hw config.warmupRuns
  have hmeas := runCalls_ok fn n v hn config.testRuns
  have hcast : ((times.length : ℕ) : ℚ) = 5 := by
    rw [hlen, show config.testRuns = 5 from rfl]
    norm_num
  refine ⟨?_, rfl, rfl, ?_⟩
  · simp [runBenchmarkT, hwarm, hmeas]
  · simp [runBenchmarkT, hwarm, hmeas, lastOk, hn, hcast]

/-- A strategy that always returns 7, used as witness input. -/
def constStrategy : ℚ → Except String ℤ := fun _ => Except.ok 7

/-- Witness for C10 at `n = 200` with measured times [1,2,3,4,5]. -/
theorem c10_protocol_witness :
    (runBenchmarkT constStrategy "Const" 200 [1, 2, 3, 4, 5] false 0 0).1 =
      List.replicate config.warmupRuns (min ((200 : ℚ) / 100) 1000000) ++
        List.replicate config.testRuns 200 ∧
    config.warmupRuns = 3 ∧ config.testRuns = 5 ∧
    (runBenchmarkT constStrategy "Const" 200 [1, 2, 3, 4, 5] false 0 0).2 =
      ⟨"Const", .fin (([1, 2, 3, 4, 5] : List ℚ).sum / 5), 7, 0 - 0,
        200 / ((([1, 2, 3, 4, 5] : List ℚ).sum / 5) / 1000), none⟩ :=
  c10_protocol constStrategy "Const" 200 [1, 2, 3, 4, 5] 0 0 7 7 rfl rfl rfl

theorem toDigitsCore_length (b : ℕ) :
    ∀ fuel n ds, 1 ≤ fuel →
      ds.length + 1 ≤ (Nat.toDigitsCore b fuel n ds).length := by
  intro fuel
  induction fuel with
  | zero => intro n ds h; omega
  | succ fuel ih =>
    intro n ds _
    by_cases h0 : n / b = 0
    · simp [Nat.toDigitsCore, h0]
    · simp only [Nat.toDigitsCore, if_neg h0]
      rcases fuel with _ | f
      · simp [Nat.toDigitsCore]
      · have := ih (n / b) (Nat.digitChar (n % b) :: ds) (by omega)
        simp only [List.length_cons] at this
        omega

theorem digitChar_ne_zero (r : ℕ) (hr : r ≠ 0) (hlt : r < 10) : Nat.digitChar r ≠ '0' := by
  interval_cases r <;> first | exact absurd rfl hr | decide

/-- A positive natural number never prints as "0" (its decimal
representation either is a single non-zero digit or has at least two
characters). -/
theorem nat_repr_ne_zero (m : ℕ) (hm : 0 < m) : Nat.repr m ≠ "0" := by
  intro h
  unfold Nat.repr Nat.toDigits at h
  have hmk : ∀ l : List Char, (List.asString l).data = l := fun l => rfl
  have h0data : ("0" : String).data = ['0'] := rfl
  by_cases hq : m / 10 = 0
  · have hone : Nat.toDigitsCore 10 (m + 1) m [] = [Nat.digitChar (m % 10)] := by
      simp [Nat.toDigitsCore, hq]
    rw [hone] at h
    have hdata : [Nat.digitChar (m % 10)] = ['0'] := by
      rw [← hmk [Nat.digitChar (m % 10)], h, h0data]
    have hd : Nat.digitChar (m % 10) = '0' := by injection hdata
    have hr : m % 10 ≠ 0 := by omega
    exact digitChar_ne_zero (m % 10) hr (by omega) hd
  · have heq : Nat.toDigitsCore 10 (m + 1) m [] =
        Nat.toDigitsCore 10 m (m / 10) [Nat.digitChar (m % 10)] := by
      simp [Nat.toDigitsCore, hq]
    rw [heq] at h
    have hlen := toDigitsCore_length 10 m (m / 10) [Nat.digitChar (m % 10)] (by omega)
    have hdata : Nat.toDigitsCore 10 m (m / 10) [Nat.digitChar (m % 10)] = ['0'] := by
      rw [← hmk (Nat.toDigitsCore 10 m (m / 10) [Nat.digitChar (m % 10)]), h, h0data]
    rw [hdata] at hlen
    simp at hlen

/-- JS `toString` of a positive integer result is never the string "0". -/
theorem toString_intCast_ne_zero (m : ℕ) (hm : 0 < m) : toString ((m : ℤ)) ≠ "0" :=
  nat_repr_ne_zero m hm

/-- If a result list contains two succeeded results whose values print
differently, the verification verdict is a mismatch. -/
theorem verdict_mismatch_of_two (rs : List BenchmarkResult) (r1 r2 : BenchmarkResult)
    (h1m : r1 ∈ rs) (h1e : r1.error = none) (h2m : r2 ∈ rs) (h2e : r2.error = none)
    (hne : toString r1.result ≠ toString r2.result) :
    formatVerdict rs = .mismatch := by
  have hv1 : r1 ∈ validOf rs := List.mem_filter.mpr ⟨h1m, by simp [h1e]⟩
  have hv2 : r2 ∈ validOf rs := List.mem_filter.mpr ⟨h2m, by simp [h2e]⟩
  have hs1 : toString r1.result ∈ uniqueResults rs :=
    List.mem_dedup.mpr (List.mem_map_of_mem _ hv1)
  have hs2 : toString r2.result ∈ uniqueResults rs :=
    List.mem_dedup.mpr (List.mem_map_of_mem _ hv2)
  have hvne : ¬ validOf rs = [] := by
    intro hempty
    rw [hempty] at hv1
    simp at hv1
  have hlen : ¬ (uniqueResults rs).length = 1 := by
    intro hl
    rcases List.length_eq_one.mp hl with ⟨a, ha⟩
    rw [ha] at hs1 hs2
    simp at hs1 hs2
    exact hne (hs1.trans hs2.symm)
  unfold formatVerdict
  rw [if_neg hvne, if_neg hlen]

/-- A suite entry as `runBenchmark` would record it when the strategy
succeeds: error-free with the strategy's value (mean time and memory are
irrelevant to verification and fixed). -/
def mkSuiteResult (nm : String) (v : ℤ) : BenchmarkResult := ⟨nm, .fin 1, v, 0, 0, none⟩

/-- The benchmark list of `main` (source lines 553-580) evaluated at size
`n` with `P` workers under the ideal exception-free semantics of the
embedding: every entry succeeds with its strategy's value; the Realistic
Stress Test entry returns the dummy value 0 (source line 569); the Tail
Recursive entry is appended only when the test size is at most 10000
(source lines 575-580). -/
def suiteResults (n P : ℕ) : List BenchmarkResult :=
  [mkSuiteResult "Mathematical Formula" (mathFormula n),
   mkSuiteResult "BigInt Math Formula" (mathFormulaBigInt n),
   mkSuiteResult "Assembly Style Loop" (assemblyStyleLoop n),
   mkSuiteResult "SIMD Style Processing" (simdStyle n),
   mkSuiteResult "Optimized Loop" (optimizedLoop n),
   mkSuiteResult "Cache Friendly" (cacheFriendly n),
   mkSuiteResult "Typed Array Optimal" (typedArrayOptimal n),
   mkSuiteResult "Parallel Workers" (parallelWorkers n P),
   mkSuiteResult "Realistic Stress Test" 0] ++
  (if n ≤ 10000 then [mkSuiteResult "Tail Recursive" (tailRecursive n)] else [])

/-- Counterexample for C3 as stated (quantified over every input size
`N > 0`): at `N = 1` every summation strategy succeeds and returns 0, the
stress-test entry also returns 0, so the verification reports pass — not
failure. -/
theorem c3_counterexample : formatVerdict (suiteResults 1 4) = FormatOutcome.pass := by
  decide

/-- C3 (amended from `N > 0` to `N ≥ 2`; at `N = 1` the sum is 0, every
result's string is "0" and verification passes): in every suite execution
with input size `N ≥ 2` in which at least one summation strategy succeeds
(its value being `N*(N-1)/2`) and the Realistic Stress Test entry succeeds
with its constant result 0, the verification check reports failure rather
than pass, because "0" joins the set of succeeded results' string
representations alongside the non-zero `N*(N-1)/2`; in particular the
all-succeeding suite at size `N ≥ 2` yields the mismatch verdict. -/
theorem c3_stress_test_breaks_verification (n P : ℕ) (rs : List BenchmarkResult)
    (hn : 2 ≤ n) (hP : 1 ≤ P)
    (h1 : ∃ r ∈ rs, r.error = none ∧ r.result = ((n * (n - 1) / 2 : ℕ) : ℤ))
    (h0 : ∃ r ∈ rs, r.error = none ∧ r.result = 0) :
    formatVerdict rs ≠ FormatOutcome.pass ∧
    formatVerdict (suiteResults n P) = FormatOutcome.mismatch := by
  have hTpos : 0 < n * (n - 1) / 2 := by
    have h2 : 2 * 1 ≤ n * (n - 1) := Nat.mul_le_mul (by omega) (by omega)
    omega
  constructor
  · obtain ⟨r1, h1m, h1e, h1v⟩ := h1
    obtain ⟨r2, h2m, h2e, h2v⟩ := h0
    have hne : toString r1.result ≠ toString r2.result := by
      rw [h1v, h2v]
      exact toString_intCast_ne_zero _ hTpos
    have hmm := verdict_mismatch_of_two rs r1 r2 h1m h1e h2m h2e hne
    rw [hmm]
    intro hc
    cases hc
  · have h1m : mkSuiteResult "Mathematical Formula" (mathFormula n) ∈ suiteResults n P := by
      simp [suiteResults]
    have h2m : mkSuiteResult "Realistic Stress Test" 0 ∈ suiteResults n P := by
      simp [suiteResults]
    have hne : toString (mkSuiteResult "Mathematical Formula" (mathFormula n)).result ≠
        toString (mkSuiteResult "Realistic Stress Test" (0 : ℤ)).result := by
      show toString (mathFormula n) ≠ toString (0 : ℤ)
      rw [mathFormula_eq, sumLen_zero_eq]
      exact toString_intCast_ne_zero _ hTpos
    exact verdict_mismatch_of_two (suiteResults n P) _ _ h1m rfl h2m rfl hne

/-- Witness for the amended C3 at `N = 2`, `P = 1` with a two-entry result
list holding the values 1 = 2*(2-1)/2 and 0. -/
theorem c3_stress_test_breaks_verification_witness :
    formatVerdict [mkSuiteResult "x" 1, mkSuiteResult "y" 0] ≠ FormatOutcome.pass ∧
    formatVerdict (suiteResults 2 1) = FormatOutcome.mismatch :=
  c3_stress_test_breaks_verification 2 1 [mkSuiteResult "x" 1, mkSuiteResult "y" 0]
    (by decide) (by decide)
    ⟨mkSuiteResult "x" 1, by decide, rfl, by decide⟩
    ⟨mkSuiteResult "y" 0, by decide, rfl, rfl⟩

end BC
